import Mathlib

/-!
# Verification of the zeta-scale-go core

Shallow embedding of the two core subsystems of the repository:

* the chunked Euler–Maclaurin summation engine
  (`calculateSpiralPartialSums`, `computePartialSumWithLinks`,
  `calculateSingleThreadedPartialSums` from the spiral command), and
* the adaptive pixel-space downsampler
  (`downsampleComplexSerial`, `downsampleComplex`).

Go `complex128` values are modelled as `ℂ`, `float64` values as `ℝ`
(exact arithmetic: the spec's tolerance statements are implied by the
exact equalities proved here), machine integers as `ℕ`/`ℤ`.
-/

namespace ZetaScale

/-! ## Summation engine -/

/-- Clamp constant `MinN`: lower clamp for the number of terms. -/
def MinN : ℕ := 100

/-- Clamp constant `MaxN`: upper clamp for the number of terms (default value of the flag). -/
def MaxN : ℕ := 65000000000

/-- Global chunk width `ChunkSize` used by the engine. -/
def ChunkSize : ℕ := 100000

/-- The term evaluator: `cmplx.Pow(complex(float64(k), 0), -s)`. -/
noncomputable def zetaTerm (s : ℂ) (k : ℕ) : ℂ := (k : ℂ) ^ (-s)

/-- Function `computePartialSumWithLinks` computes the sum over `[start, stop)` and the
list of intermediate cumulative sums ("links") for that range, by the same
running-accumulator loop as the Go function. -/
noncomputable def computePartialSumWithLinks (s : ℂ) (start stop : ℕ) : ℂ × List ℂ :=
  (List.range' start (stop - start)).foldl
    (fun acc k => (acc.1 + zetaTerm s k, acc.2 ++ [acc.1 + zetaTerm s k]))
    (0, [])

/-- Number of chunks: `numChunks := (N + ChunkSize - 1) / ChunkSize`. -/
def numChunks (N C : ℕ) : ℕ := (N + C - 1) / C

/-- The chunk index ranges produced by the launch loop: chunk `i` covers
`[i*C + 1, min (i*C + 1 + C) N)`. -/
def spiralChunks (N C : ℕ) : List (ℕ × ℕ) :=
  (List.range (numChunks N C)).map (fun i => (i * C + 1, min (i * C + 1 + C) N))

/-- The sequential chaining loop of `calculateSpiralPartialSums`: each chunk's
local links are shifted by the running sum, appended, and the running sum is
advanced by the chunk's final local sum. -/
noncomputable def chainChunks (s : ℂ) (N C : ℕ) : ℂ × List ℂ :=
  (List.range (numChunks N C)).foldl
    (fun acc i =>
      let start := i * C + 1
      let stop := min (start + C) N
      let r := computePartialSumWithLinks s start stop
      (acc.1 + r.1, acc.2 ++ r.2.map (fun z => z + acc.1)))
    (0, [])

/-- Euler–Maclaurin tail-integral correction `term1 = N^(1-s) / (s-1)`. -/
noncomputable def correctionTerm1 (s : ℂ) (N : ℕ) : ℂ :=
  (N : ℂ) ^ ((1 : ℂ) - s) / (s - 1)

/-- Euler–Maclaurin half-term correction `term2 = 0.5 * N^(-s)`. -/
noncomputable def correctionTerm2 (s : ℂ) (N : ℕ) : ℂ :=
  (0.5 : ℂ) * (N : ℂ) ^ (-s)

/-- Add a value to the last element of a list (no-op on the empty list),
modelling `chainedLinks[len(chainedLinks)-1] += term1 + term2` guarded by
`len(chainedLinks) > 0`. -/
def addToLast (c : ℂ) : List ℂ → List ℂ
  | [] => []
  | [x] => [x + c]
  | x :: y :: tl => x :: addToLast c (y :: tl)

/-- The chunked engine for a given (already clamped) term count `N` and chunk
width `C`: chain the chunks, then apply the two correction terms to the total
and to the last link. -/
noncomputable def spiralSums (s : ℂ) (N C : ℕ) : ℂ × List ℂ :=
  let r := chainChunks s N C
  let corr := correctionTerm1 s N + correctionTerm2 s N
  (r.1 + corr, addToLast corr r.2)

/-- Clamping of the term count into `[MinN, MaxN]`. -/
def clampN (n : ℕ) : ℕ := if n < MinN then MinN else if n > MaxN then MaxN else n

/-- Function `calculateSpiralPartialSums` derives `N = int(cmplx.Abs(s))` clamped into
`[MinN, MaxN]`, then runs the chunked engine at the global chunk width. -/
noncomputable def calculateSpiralPartialSums (s : ℂ) : ℂ × List ℂ :=
  spiralSums s (clampN ⌊Complex.abs s⌋₊) ChunkSize

/-- Function `calculateSingleThreadedPartialSums` allocates `numLinks` slots and writes
the running sum into slots `1 .. numLinks-1`; slot `0` keeps the zero value. -/
noncomputable def calculateSingleThreadedPartialSums (s : ℂ) (numLinks : ℕ) : List ℂ :=
  (List.range numLinks).map (fun k => ((List.range' 1 k).map (zetaTerm s)).sum)

/-- The single-threaded cumulative sum of the first `t` terms,
`Σ_{k=1}^{t} k^(-s)`. -/
noncomputable def cumSum (s : ℂ) (t : ℕ) : ℂ :=
  ((List.range' 1 t).map (zetaTerm s)).sum

/-! ### Closed forms for the engine -/

theorem take_range'_of_le (a : ℕ) {j n : ℕ} (h : j ≤ n) :
    (List.range' a n).take j = List.range' a j := by
  have hsplit : List.range' a j ++ List.range' (a + j) (n - j) = List.range' a n := by
    have h1 := List.range'_append a j (n - j) 1
    rw [one_mul] at h1
    rw [h1]
    congr 1
    omega
  rw [← hsplit, List.take_append_of_le_length (by simp)]
  simp

theorem links_foldl_closed (s : ℂ) (l : List ℕ) (acc : ℂ) (out : List ℂ) :
    l.foldl (fun p k => (p.1 + zetaTerm s k, p.2 ++ [p.1 + zetaTerm s k])) (acc, out)
      = (acc + (l.map (zetaTerm s)).sum,
         out ++ (List.range' 1 l.length).map
           (fun j => acc + ((l.take j).map (zetaTerm s)).sum)) := by
  induction l generalizing acc out with
  | nil => simp
  | cons k tl ih =>
      simp only [List.foldl_cons, List.map_cons, List.sum_cons, List.length_cons]
      rw [ih]
      simp only [Prod.mk.injEq]
      refine ⟨by ring, ?_⟩
      rw [List.range'_succ, List.map_cons]
      have h2 : List.range' 2 tl.length = (List.range' 1 tl.length).map (fun x => 1 + x) := by
        have h3 := List.map_add_range' 1 1 tl.length 1
        rw [h3]
      rw [h2, List.map_map, List.append_assoc, List.singleton_append]
      congr 1
      congr 1
      · simp
      · refine List.map_congr_left (fun j _ => ?_)
        simp only [Function.comp_apply]
        have hjt : (k :: tl).take (1 + j) = k :: tl.take j := by
          rw [Nat.add_comm]
          rfl
        rw [hjt]
        simp only [List.map_cons, List.sum_cons]
        ring

theorem computePartialSumWithLinks_closed (s : ℂ) (start stop : ℕ) :
    computePartialSumWithLinks s start stop
      = (((List.range' start (stop - start)).map (zetaTerm s)).sum,
         (List.range' 1 (stop - start)).map
           (fun j => ((List.range' start j).map (zetaTerm s)).sum)) := by
  rw [computePartialSumWithLinks, links_foldl_closed]
  simp only [zero_add, List.nil_append, List.length_range']
  refine congrArg _ (List.map_congr_left fun j hj => ?_)
  have hj' : j ≤ stop - start := by
    have := List.mem_range'_1.mp hj
    omega
  rw [take_range'_of_le start hj']

/-- Chaining a list of `(start, stop)` chunk descriptors behaves exactly like a
single pass over the concatenation of the chunk index ranges. -/
theorem chain_foldl_closed (s : ℂ) (ps : List (ℕ × ℕ)) (acc : ℂ) (out : List ℂ) :
    ps.foldl
      (fun p q =>
        let r := computePartialSumWithLinks s q.1 q.2
        (p.1 + r.1, p.2 ++ r.2.map (fun z => z + p.1)))
      (acc, out)
    = (acc + ((ps.flatMap (fun q => List.range' q.1 (q.2 - q.1))).map (zetaTerm s)).sum,
       out ++ (List.range' 1 (ps.flatMap (fun q => List.range' q.1 (q.2 - q.1))).length).map
         (fun j =>
           acc + (((ps.flatMap (fun q => List.range' q.1 (q.2 - q.1))).take j).map
             (zetaTerm s)).sum)) := by
  induction ps generalizing acc out with
  | nil => simp
  | cons q tl ih =>
      simp only [List.foldl_cons, List.flatMap_cons]
      rw [computePartialSumWithLinks_closed]
      simp only []
      rw [ih]
      set A := List.range' q.1 (q.2 - q.1) with hA
      set B := tl.flatMap (fun p => List.range' p.1 (p.2 - p.1)) with hB
      have hlenA : A.length = q.2 - q.1 := by rw [hA]; simp
      simp only [Prod.mk.injEq]
      refine ⟨by simp only [List.map_append, List.sum_append]; ring, ?_⟩
      rw [List.map_map, List.length_append]
      have hsplit : List.range' 1 (A.length + B.length)
          = List.range' 1 A.length ++ List.range' (1 + A.length) B.length := by
        have h1 := List.range'_append 1 A.length B.length 1
        rw [one_mul] at h1
        rw [Nat.add_comm A.length B.length]
        exact h1.symm
      rw [hsplit, List.map_append, ← List.append_assoc]
      congr 1
      congr 1
      · -- first block: indices within chunk A
        rw [hlenA]
        refine List.map_congr_left fun j hj => ?_
        have hj' : j ≤ q.2 - q.1 := by
          have := List.mem_range'_1.mp hj
          omega
        have hjA : j ≤ A.length := by rw [hlenA]; exact hj'
        simp only [Function.comp_apply]
        rw [List.take_append_of_le_length hjA, hA, take_range'_of_le q.1 hj']
        ring
      · -- second block: indices past chunk A
        have hshift : List.range' (1 + A.length) B.length
            = (List.range' 1 B.length).map (fun x => A.length + x) := by
          have h2 := List.map_add_range' A.length 1 B.length 1
          rw [h2]
          congr 1
          omega
        rw [hshift, List.map_map]
        refine List.map_congr_left fun j _ => ?_
        simp only [Function.comp_apply]
        rw [List.take_append]
        simp only [List.map_append, List.sum_append]
        ring

theorem flat_spiralChunks_prefix (N C : ℕ) (hC : 1 ≤ C) (m : ℕ) :
    ((List.range m).map (fun i => ((i * C + 1 : ℕ), min (i * C + 1 + C) N))).flatMap
        (fun q => List.range' q.1 (q.2 - q.1))
      = List.range' 1 (min (m * C) (N - 1)) := by
  induction m with
  | zero => simp
  | succ m ih =>
      rw [List.range_succ, List.map_append, List.flatMap_append, ih]
      simp only [List.map_cons, List.map_nil, List.flatMap_cons, List.flatMap_nil,
        List.append_nil]
      have hab : (m + 1) * C = m * C + C := by ring
      rw [hab]
      generalize m * C = a
      by_cases h : N - 1 ≤ a
      · have h1 : min a (N - 1) = N - 1 := by omega
        have h2 : min (a + C) (N - 1) = N - 1 := by omega
        have h3 : min (a + 1 + C) N - (a + 1) = 0 := by omega
        rw [h1, h2, h3]
        simp
      · have h1 : min a (N - 1) = a := by omega
        have hlen : min (a + 1 + C) N - (a + 1) = min (a + C) (N - 1) - a := by omega
        rw [h1, hlen]
        have h4 := List.range'_append 1 a (min (a + C) (N - 1) - a) 1
        rw [one_mul, Nat.add_comm 1 a] at h4
        rw [h4]
        congr 1
        omega

theorem numChunks_mul_ge (N C : ℕ) (hC : 1 ≤ C) : N ≤ numChunks N C * C := by
  have hC' : 0 < C := hC
  have h : N + C - 1 < (numChunks N C + 1) * C :=
    (Nat.div_lt_iff_lt_mul hC').mp (Nat.lt_succ_self _)
  have h2 : (numChunks N C + 1) * C = numChunks N C * C + C := Nat.succ_mul _ _
  rw [h2] at h
  have h3 : N + C ≤ numChunks N C * C + C := by
    have h4 : N + C - 1 + 1 = N + C := by omega
    calc N + C = N + C - 1 + 1 := h4.symm
      _ ≤ numChunks N C * C + C := h
  exact Nat.le_of_add_le_add_right h3

theorem chainChunks_closed (s : ℂ) (N C : ℕ) (hC : 1 ≤ C) :
    chainChunks s N C = (cumSum s (N - 1), (List.range' 1 (N - 1)).map (cumSum s)) := by
  have hfold : chainChunks s N C
      = (spiralChunks N C).foldl
          (fun p q =>
            let r := computePartialSumWithLinks s q.1 q.2
            (p.1 + r.1, p.2 ++ r.2.map (fun z => z + p.1)))
          (0, []) := by
    rw [chainChunks, spiralChunks, List.foldl_map]
  rw [hfold, chain_foldl_closed]
  have hflat : (spiralChunks N C).flatMap (fun q => List.range' q.1 (q.2 - q.1))
      = List.range' 1 (N - 1) := by
    rw [spiralChunks, flat_spiralChunks_prefix N C hC]
    congr 1
    have := numChunks_mul_ge N C hC
    omega
  rw [hflat]
  simp only [Prod.mk.injEq]
  refine ⟨by simp [cumSum], ?_⟩
  simp only [List.nil_append, List.length_range']
  refine List.map_congr_left fun j hj => ?_
  have hj' : j ≤ N - 1 := by
    have := List.mem_range'_1.mp hj
    omega
  rw [take_range'_of_le 1 hj']
  simp [cumSum]

theorem addToLast_append_singleton (c x : ℂ) (l : List ℂ) :
    addToLast c (l ++ [x]) = l ++ [x + c] := by
  induction l with
  | nil => rfl
  | cons y tl ih =>
      cases tl with
      | nil => simp [addToLast]
      | cons z tl' => simpa [addToLast] using ih

theorem spiralSums_closed (s : ℂ) (N C : ℕ) (hC : 1 ≤ C) :
    spiralSums s N C
      = (cumSum s (N - 1) + (correctionTerm1 s N + correctionTerm2 s N),
         addToLast (correctionTerm1 s N + correctionTerm2 s N)
           ((List.range' 1 (N - 1)).map (cumSum s))) := by
  rw [spiralSums, chainChunks_closed s N C hC]

theorem singleThreaded_drop_one (s : ℂ) (N : ℕ) :
    (calculateSingleThreadedPartialSums s N).drop 1
      = (List.range' 1 (N - 1)).map (cumSum s) := by
  rw [calculateSingleThreadedPartialSums, ← List.map_drop]
  congr 1
  cases N with
  | zero => simp
  | succ n =>
      rw [List.range_eq_range']
      have h0 : List.range' 0 (n + 1) = List.range' 0 1 ++ List.range' 1 n := by
        have h1 := List.range'_append 0 1 n 1
        rw [one_mul] at h1
        simpa using h1.symm
      rw [h0]
      simp

theorem addToLast_length (c : ℂ) (l : List ℂ) : (addToLast c l).length = l.length := by
  induction l with
  | nil => rfl
  | cons x tl ih =>
      cases tl with
      | nil => rfl
      | cons y tl' => simpa [addToLast] using ih

theorem trajectory_split (s : ℂ) (N : ℕ) (hN : 2 ≤ N) :
    (List.range' 1 (N - 1)).map (cumSum s)
      = (List.range' 1 (N - 2)).map (cumSum s) ++ [cumSum s (N - 1)] := by
  obtain ⟨k, rfl⟩ : ∃ k, N = k + 2 := ⟨N - 2, by omega⟩
  have h1 : k + 2 - 1 = k + 1 := by omega
  have h2 : k + 2 - 2 = k := by omega
  rw [h1, h2, @List.range'_concat 1 1 k, List.map_append]
  have h3 : 1 + 1 * k = k + 1 := by omega
  rw [h3]
  simp

/-! ## Claim theorems for the summation engine -/

/-- C1. Chunk invariance and single-threaded equivalence: for every
exponent `s`, term count `N` and positive chunk widths `C`, `D`, the chunked
engine's grand total and trajectory are literally equal for widths `C` and
`D`, the trajectory equals the single-threaded accumulation over `[1, N)`
(the slots `1 .. N-1` of `calculateSingleThreadedPartialSums`) with the two
correction terms added to the last element, and the grand total equals the
single-threaded sum of all terms plus the corrections.  Exact equality in
the real-arithmetic model implies equality within any tolerance. -/
theorem spiral_chunk_invariance (s : ℂ) (N C D : ℕ) (hC : 1 ≤ C) (hD : 1 ≤ D) :
    spiralSums s N C = spiralSums s N D ∧
    (spiralSums s N C).2
      = addToLast (correctionTerm1 s N + correctionTerm2 s N)
          ((calculateSingleThreadedPartialSums s N).drop 1) ∧
    (spiralSums s N C).1
      = cumSum s (N - 1) + (correctionTerm1 s N + correctionTerm2 s N) := by
  rw [spiralSums_closed s N C hC, spiralSums_closed s N D hD, singleThreaded_drop_one]
  exact ⟨rfl, rfl, rfl⟩

/-- Witness for C1 at `s = 2`, `N = 5`, `C = 2`, `D = 3`. -/
theorem spiral_chunk_invariance_witness :
    ((1 : ℕ) ≤ 2 ∧ (1 : ℕ) ≤ 3) ∧
    (spiralSums 2 5 2 = spiralSums 2 5 3 ∧
     (spiralSums 2 5 2).2
       = addToLast (correctionTerm1 2 5 + correctionTerm2 2 5)
           ((calculateSingleThreadedPartialSums 2 5).drop 1) ∧
     (spiralSums 2 5 2).1
       = cumSum 2 (5 - 1) + (correctionTerm1 2 5 + correctionTerm2 2 5)) :=
  ⟨⟨by decide, by decide⟩, spiral_chunk_invariance 2 5 2 3 (by decide) (by decide)⟩

/-- C2. The correction terms are applied exactly once, to the grand total
and to the trajectory's last element only: the trajectory has length `N - 1`,
every element except the last equals the plain cumulative sum of terms
`1 .. i+1`, and the last element and grand total both carry the corrections
exactly once. -/
theorem spiral_correction_frame (s : ℂ) (N C : ℕ) (hC : 1 ≤ C) (hN : 2 ≤ N) :
    (spiralSums s N C).2.length = N - 1 ∧
    (∀ i, i < N - 2 → (spiralSums s N C).2[i]? = some (cumSum s (i + 1))) ∧
    (spiralSums s N C).2.getLast?
      = some (cumSum s (N - 1) + (correctionTerm1 s N + correctionTerm2 s N)) ∧
    (spiralSums s N C).1
      = cumSum s (N - 1) + (correctionTerm1 s N + correctionTerm2 s N) := by
  rw [spiralSums_closed s N C hC]
  simp only
  rw [trajectory_split s N hN, addToLast_append_singleton]
  refine ⟨?_, ?_, ?_, trivial⟩
  · simp only [List.length_append, List.length_map, List.length_range', List.length_cons,
      List.length_nil]
    omega
  · intro i hi
    rw [List.getElem?_append_left (by simp; omega), List.getElem?_map,
      List.getElem?_range' 1 1 hi]
    simp [Nat.add_comm 1 i]
  · exact List.getLast?_concat _

/-- Witness for C2 at `s = 2`, `N = 3`, `C = 1`. -/
theorem spiral_correction_frame_witness :
    ((1 : ℕ) ≤ 1 ∧ (2 : ℕ) ≤ 3) ∧
    ((spiralSums 2 3 1).2.length = 3 - 1 ∧
     (∀ i, i < 3 - 2 → (spiralSums 2 3 1).2[i]? = some (cumSum 2 (i + 1))) ∧
     (spiralSums 2 3 1).2.getLast?
       = some (cumSum 2 (3 - 1) + (correctionTerm1 2 3 + correctionTerm2 2 3)) ∧
     (spiralSums 2 3 1).1
       = cumSum 2 (3 - 1) + (correctionTerm1 2 3 + correctionTerm2 2 3)) :=
  ⟨⟨by decide, by decide⟩, spiral_correction_frame 2 3 1 (by decide) (by decide)⟩

/-- C3 counterexample: At clamped term count `N = 101` and chunk width
`C = 100` the engine creates `⌈N/C⌉ = 2` chunks (the second one empty), not
`⌈(N-1)/C⌉ = 1` as the claim states. -/
theorem spiral_chunk_count_counterexample :
    numChunks 101 100 = 2 ∧
    spiralChunks 101 100 = [(1, 101), (101, 101)] ∧
    (101 - 1 + 100 - 1) / 100 = 1 := by
  refine ⟨by decide, by decide, by decide⟩

/-- The chunk ranges tile `[1, N)` exactly. -/
theorem spiralChunks_flat (N C : ℕ) (hC : 1 ≤ C) :
    (spiralChunks N C).flatMap (fun q => List.range' q.1 (q.2 - q.1))
      = List.range' 1 (N - 1) := by
  rw [spiralChunks, flat_spiralChunks_prefix N C hC]
  congr 1
  have := numChunks_mul_ge N C hC
  omega

/-- C3 amended: For every term count `N` and positive chunk width `C`,
the engine partitions `[1, N)` into exactly `⌈N/C⌉ = (N + C - 1) / C`
contiguous half-open chunks in start-index order (the last chunk is empty
when `N ≡ 1 mod C`), which tile `[1, N)` with no overlap and no gap, each of
size at most `C`. -/
theorem spiral_chunks_tile (N C : ℕ) (hC : 1 ≤ C) :
    (spiralChunks N C).flatMap (fun q => List.range' q.1 (q.2 - q.1))
      = List.range' 1 (N - 1) ∧
    (∀ q ∈ spiralChunks N C, q.2 - q.1 ≤ C) ∧
    (spiralChunks N C).length = (N + C - 1) / C := by
  refine ⟨spiralChunks_flat N C hC, ?_, by simp [spiralChunks, numChunks]⟩
  intro q hq
  simp only [spiralChunks, List.mem_map, List.mem_range] at hq
  obtain ⟨i, _, rfl⟩ := hq
  simp only
  omega

/-- Witness for the amended C3 at `N = 7`, `C = 3`. -/
theorem spiral_chunks_tile_witness :
    (1 : ℕ) ≤ 3 ∧
    ((spiralChunks 7 3).flatMap (fun q => List.range' q.1 (q.2 - q.1))
       = List.range' 1 (7 - 1) ∧
     (∀ q ∈ spiralChunks 7 3, q.2 - q.1 ≤ 3) ∧
     (spiralChunks 7 3).length = (7 + 3 - 1) / 3) :=
  ⟨by decide, spiral_chunks_tile 7 3 (by decide)⟩

/-- C4 counterexample: At `s = 1` the tail-correction denominator
`s - 1` is zero, yet `calculateSpiralPartialSums` returns normally with a
full `N - 1 = 99` element trajectory (its Go signature has no error result at
all); no domain error is detected or reported. -/
theorem spiral_no_domain_error_counterexample :
    ((1 : ℂ) - 1 = 0) ∧ (calculateSpiralPartialSums 1).2.length = 99 := by
  refine ⟨by ring, ?_⟩
  rw [calculateSpiralPartialSums]
  have hN : clampN ⌊Complex.abs 1⌋₊ = 100 := by
    norm_num [clampN, MinN, MaxN]
  rw [hN, spiralSums_closed 1 100 ChunkSize (by norm_num [ChunkSize])]
  simp only [addToLast_length, List.length_map, List.length_range']

/-- C4 amended: The engine performs no domain check at the singular
exponent: at `s = 1` (denominator `s - 1 = 0`) it silently returns a grand
total (sum plus the corrections computed with the zero denominator — a
non-finite value in the Go floating-point implementation) and a full
99-element trajectory, rather than a distinct recoverable error. -/
theorem spiral_singular_exponent_behavior :
    (calculateSpiralPartialSums 1).1
      = cumSum 1 99 + (correctionTerm1 1 100 + correctionTerm2 1 100) ∧
    (calculateSpiralPartialSums 1).2.length = 99 := by
  rw [calculateSpiralPartialSums]
  have hN : clampN ⌊Complex.abs 1⌋₊ = 100 := by
    norm_num [clampN, MinN, MaxN]
  rw [hN, spiralSums_closed 1 100 ChunkSize (by norm_num [ChunkSize])]
  simp [addToLast_length]

/-! ## Pixel-space downsampler -/

/-- Go `math.Round`: round half away from zero. -/
noncomputable def mathRound (x : ℝ) : ℤ := if x < 0 then -⌊-x + 1 / 2⌋ else ⌊x + 1 / 2⌋

/-- Bounding box `((minX, maxX), (minY, maxY))` of a trajectory, computed by
one pass over all links starting from the first element's coordinates. -/
noncomputable def viewBounds (l0 : ℂ) (links : List ℂ) : (ℝ × ℝ) × (ℝ × ℝ) :=
  links.foldl
    (fun b l => ((min b.1.1 l.re, max b.1.2 l.re), (min b.2.1 l.im, max b.2.2 l.im)))
    ((l0.re, l0.re), (l0.im, l0.im))

/-- Threshold `maxRelativeSpread`: base `0.0001`, scaled by `5^aggressiveness` when the
aggressiveness is positive, overridden by a linear ramp from `0.03` to `0.05`
above `3.5`. -/
noncomputable def maxRelativeSpreadOf (a : ℝ) : ℝ :=
  let base := if 0 < a then 0.0001 * (5 : ℝ) ^ a else (0.0001 : ℝ)
  if 3.5 < a then 0.03 + 0.02 * ((a - 3.5) / 0.5) else base

/-- Threshold `pixelSpreadThreshold` `= 1 + aggressiveness * 2` for positive
aggressiveness, else `1`. -/
noncomputable def pixelSpreadThresholdOf (a : ℝ) : ℝ := if 0 < a then 1 + a * 2 else 1

/-- Threshold `interpolationThreshold`: `1.1 * 2.5^aggressiveness`, overridden by a
linear ramp from `55` to `75` above `3.5`. -/
noncomputable def interpolationThresholdOf (a : ℝ) : ℝ :=
  if 3.5 < a then 55 + 20 * ((a - 3.5) / 0.5) else 1.1 * (2.5 : ℝ) ^ a

/-- Interpolation step count for a pixel gap: `int(gap / 2^min(a, 3.5))`,
scaled by `1 - 0.5 * t` (and truncated again) above `a = 3.5`. -/
noncomputable def interpSteps (a pixelGap : ℝ) : ℕ :=
  let steps := ⌊pixelGap / (2 : ℝ) ^ (min a 3.5)⌋₊
  if 3.5 < a then ⌊(steps : ℝ) * (1 - 0.5 * ((a - 3.5) / 0.5))⌋₊ else steps

/-- The `steps` evenly spaced linear interpolations between `last` and `link`
(`t = s / (steps + 1)` for `s = 1 .. steps`). -/
noncomputable def interpPoints (last link : ℂ) (steps : ℕ) : List ℂ :=
  (List.range' 1 steps).map (fun (s : ℕ) =>
    let t : ℝ := (s : ℝ) / ((steps : ℝ) + 1)
    last * (1 - (t : ℂ)) + link * (t : ℂ))

/-- Pixel bin of a point: normalize into the bounding box and scale by the
output resolution, rounding each coordinate. -/
noncomputable def pixelForLink (minX maxX minY maxY : ℝ) (outputSize : ℕ) (link : ℂ) :
    ℤ × ℤ :=
  (mathRound ((link.re - minX) / (maxX - minX) * outputSize),
   mathRound ((link.im - minY) / (maxY - minY) * outputSize))

/-- The mutable group accumulator threaded through the grouping loop. -/
structure GroupData where
  sum : ℂ
  count : ℕ
  pixelX : ℤ
  pixelY : ℤ
  lastLink : ℂ

/-- The grouping / interpolation loop shared verbatim by the serial
downsampler and by each parallel chunk worker: merge a point into the current
group when its bin matches or is within the spread threshold of the group's
bin on both axes; otherwise flush the group's average, interpolate across the
pixel gap when it exceeds the threshold, and start a new group. -/
noncomputable def serialPass (pix : ℂ → ℤ × ℤ) (pst ithr a : ℝ) :
    List ℂ → List ℂ × GroupData → List ℂ × GroupData
  | [], st => st
  | link :: rest, (downsampled, g) =>
      let px := (pix link).1
      let py := (pix link).2
      if (px = g.pixelX ∧ py = g.pixelY) ∨
          (|((px - g.pixelX : ℤ) : ℝ)| ≤ pst ∧ |((py - g.pixelY : ℤ) : ℝ)| ≤ pst) then
        serialPass pix pst ithr a rest
          (downsampled, ⟨g.sum + link, g.count + 1, g.pixelX, g.pixelY, link⟩)
      else
        let avg := g.sum / (g.count : ℂ)
        let dx := px - g.pixelX
        let dy := py - g.pixelY
        let pixelGap := Real.sqrt (((dx * dx + dy * dy : ℤ) : ℝ))
        let newPts :=
          if ithr < pixelGap then interpPoints g.lastLink link (interpSteps a pixelGap) else []
        serialPass pix pst ithr a rest (downsampled ++ [avg] ++ newPts, ⟨link, 1, px, py, link⟩)

/-- Function `downsampleComplexSerial`: bounding box, relative-spread short-circuit to
a single averaged point, then the grouping loop seeded with the first link,
with a final flush of the last group. -/
noncomputable def downsampleComplexSerial (links : List ℂ) (outputSize : ℕ)
    (aggressiveness : ℝ) (debug : Bool) : List ℂ :=
  match links with
  | [] => []
  | l0 :: rest =>
    let b := viewBounds l0 links
    let minX := b.1.1
    let maxX := b.1.2
    let minY := b.2.1
    let maxY := b.2.2
    let maxRange := max (maxX - minX) (maxY - minY)
    let baseRange := max 0.01 maxRange
    let relativeSpread := maxRange / baseRange
    if relativeSpread ≤ maxRelativeSpreadOf aggressiveness then
      [links.sum / (links.length : ℂ)]
    else
      let pix := pixelForLink minX maxX minY maxY outputSize
      let r := serialPass pix (pixelSpreadThresholdOf aggressiveness)
        (interpolationThresholdOf aggressiveness) aggressiveness rest
        ([], ⟨l0, 1, (pix l0).1, (pix l0).2, l0⟩)
      r.1 ++ [r.2.sum / (r.2.count : ℂ)]

/-- Per-chunk result collected by the parallel downsampler. -/
structure ChunkResult where
  points : List ℂ
  lastPoint : ℂ
  lastPx : ℤ
  lastPy : ℤ

/-- One parallel worker: run the grouping loop on its chunk and flush the
final group; an empty chunk produces the zero-valued result the Go worker
sends back. -/
noncomputable def processChunk (pix : ℂ → ℤ × ℤ) (pst ithr a : ℝ) :
    List ℂ → ChunkResult
  | [] => ⟨[], 0, 0, 0⟩
  | c0 :: rest =>
    let r := serialPass pix pst ithr a rest ([], ⟨c0, 1, (pix c0).1, (pix c0).2, c0⟩)
    ⟨r.1 ++ [r.2.sum / (r.2.count : ℂ)], r.2.lastLink, r.2.pixelX, r.2.pixelY⟩

/-- The merge loop of `downsampleComplex`: concatenate chunk outputs in index
order; between chunk `i` and chunk `i+1` (when both emitted points) compare
the recorded `lastPx`/`lastPy` bins of the two chunks and, when that gap
exceeds the threshold, interpolate between chunk `i`'s last raw point and
chunk `i+1`'s first emitted point. -/
noncomputable def mergeChunks (ithr a : ℝ) : List ChunkResult → List ℂ
  | [] => []
  | c :: rest =>
      if c.points = [] then mergeChunks ithr a rest
      else
        c.points ++
          (match rest with
           | [] => []
           | d :: _ =>
             if d.points = [] then []
             else
               let dx := d.lastPx - c.lastPx
               let dy := d.lastPy - c.lastPy
               let gap := Real.sqrt (((dx * dx + dy * dy : ℤ) : ℝ))
               if ithr < gap then interpPoints c.lastPoint d.points.headI (interpSteps a gap)
               else []) ++
          mergeChunks ithr a rest

/-- The parallel path of `downsampleComplex`: same bounding box, thresholds
and whole-trajectory collapse check, then `numWorkers` contiguous chunks of
width `⌈len/numWorkers⌉` processed by the grouping loop and merged in chunk
index order.  The Go code takes `numWorkers = runtime.NumCPU()`; it is a
parameter here. -/
noncomputable def downsampleComplexPar (numWorkers : ℕ) (links : List ℂ) (outputSize : ℕ)
    (aggressiveness : ℝ) (debug : Bool) : List ℂ :=
  match links with
  | [] => []
  | l0 :: _ =>
    let b := viewBounds l0 links
    let minX := b.1.1
    let maxX := b.1.2
    let minY := b.2.1
    let maxY := b.2.2
    let maxRange := max (maxX - minX) (maxY - minY)
    let baseRange := max 0.01 maxRange
    let relativeSpread := maxRange / baseRange
    if relativeSpread ≤ maxRelativeSpreadOf aggressiveness then
      [links.sum / (links.length : ℂ)]
    else
      let pix := pixelForLink minX maxX minY maxY outputSize
      let chunkSize := (links.length + numWorkers - 1) / numWorkers
      let collected := (List.range numWorkers).map
        (fun w => processChunk pix (pixelSpreadThresholdOf aggressiveness)
          (interpolationThresholdOf aggressiveness) aggressiveness
          ((links.drop (w * chunkSize)).take chunkSize))
      mergeChunks (interpolationThresholdOf aggressiveness) aggressiveness collected

/-- Function `downsampleComplex` delegates to the serial implementation below 10000
points, otherwise runs the parallel chunked pass. -/
noncomputable def downsampleComplex (numWorkers : ℕ) (links : List ℂ) (outputSize : ℕ)
    (aggressiveness : ℝ) (debug : Bool) : List ℂ :=
  if links.length < 10000 then downsampleComplexSerial links outputSize aggressiveness debug
  else downsampleComplexPar numWorkers links outputSize aggressiveness debug

/-- Modelled from the spec: the merge phase as §4.2 describes it — the
gap/interpolation check between adjacent chunks is evaluated between the last
point *emitted* by chunk `i` and the first point *emitted* by chunk `i+1`,
using their pixel bins, interpolating between those two points when the gap
exceeds the threshold.  (The code's merge, `mergeChunks` above, instead uses
the recorded final-group bins `lastPx`/`lastPy` of both chunks.) -/
noncomputable def mergeChunksSpecModel (pix : ℂ → ℤ × ℤ) (ithr a : ℝ) :
    List ChunkResult → List ℂ
  | [] => []
  | c :: rest =>
      if c.points = [] then mergeChunksSpecModel pix ithr a rest
      else
        c.points ++
          (match rest with
           | [] => []
           | d :: _ =>
             if d.points = [] then []
             else
               let pc := pix c.points.getLastI
               let pd := pix d.points.headI
               let dx := pd.1 - pc.1
               let dy := pd.2 - pc.2
               let gap := Real.sqrt (((dx * dx + dy * dy : ℤ) : ℝ))
               if ithr < gap then interpPoints c.points.getLastI d.points.headI (interpSteps a gap)
               else []) ++
          mergeChunksSpecModel pix ithr a rest

/-- Modelled from the spec: the parallel downsampler with the spec-described
merge phase substituted for the code's merge. -/
noncomputable def downsampleComplexParSpecMerge (numWorkers : ℕ) (links : List ℂ)
    (outputSize : ℕ) (aggressiveness : ℝ) (debug : Bool) : List ℂ :=
  match links with
  | [] => []
  | l0 :: _ =>
    let b := viewBounds l0 links
    let minX := b.1.1
    let maxX := b.1.2
    let minY := b.2.1
    let maxY := b.2.2
    let maxRange := max (maxX - minX) (maxY - minY)
    let baseRange := max 0.01 maxRange
    let relativeSpread := maxRange / baseRange
    if relativeSpread ≤ maxRelativeSpreadOf aggressiveness then
      [links.sum / (links.length : ℂ)]
    else
      let pix := pixelForLink minX maxX minY maxY outputSize
      let chunkSize := (links.length + numWorkers - 1) / numWorkers
      let collected := (List.range numWorkers).map
        (fun w => processChunk pix (pixelSpreadThresholdOf aggressiveness)
          (interpolationThresholdOf aggressiveness) aggressiveness
          ((links.drop (w * chunkSize)).take chunkSize))
      mergeChunksSpecModel pix (interpolationThresholdOf aggressiveness) aggressiveness collected

/-! ### Downsampler evaluation lemmas -/

theorem mathRound_of_nonneg {x : ℝ} (h : ¬x < 0) : mathRound x = ⌊x + 1 / 2⌋ := if_neg h

theorem interpPoints_length (last link : ℂ) (steps : ℕ) :
    (interpPoints last link steps).length = steps := by
  simp only [interpPoints, List.length_map, List.length_range']

theorem nfloor_sqrt_eq {v : ℝ} {k : ℕ} (h1 : (k : ℝ) ^ 2 ≤ v) (h2 : v < ((k : ℝ) + 1) ^ 2) :
    ⌊Real.sqrt v⌋₊ = k := by
  have hv : 0 ≤ v := le_trans (by positivity) h1
  exact (Nat.floor_eq_iff (Real.sqrt_nonneg v)).mpr
    ⟨(Real.le_sqrt (by positivity) hv).mpr h1, (Real.sqrt_lt' (by positivity)).mpr h2⟩

theorem maxRelativeSpreadOf_eq (a : ℝ) :
    maxRelativeSpreadOf a
      = if 3.5 < a then 0.03 + 0.02 * ((a - 3.5) / 0.5)
        else if 0 < a then 0.0001 * (5 : ℝ) ^ a else 0.0001 := by
  rw [maxRelativeSpreadOf]

theorem interpSteps_zero (g : ℝ) : interpSteps 0 g = ⌊g⌋₊ := by
  rw [interpSteps]
  have hmin : min (0 : ℝ) 3.5 = 0 := by norm_num
  rw [hmin, Real.rpow_zero]
  norm_num

theorem interpSteps_half (g : ℝ) : interpSteps (1 / 2) g = ⌊g / Real.sqrt 2⌋₊ := by
  rw [interpSteps]
  have hmin : min (1 / 2 : ℝ) 3.5 = 1 / 2 := by norm_num
  rw [hmin, ← Real.sqrt_eq_rpow]
  norm_num

theorem maxRelativeSpreadOf_zero : maxRelativeSpreadOf 0 = 0.0001 := by
  rw [maxRelativeSpreadOf_eq]
  norm_num

theorem pixelSpreadThresholdOf_zero : pixelSpreadThresholdOf 0 = 1 := by
  rw [pixelSpreadThresholdOf]
  norm_num

theorem interpolationThresholdOf_zero : interpolationThresholdOf 0 = 1.1 := by
  rw [interpolationThresholdOf]
  norm_num [Real.rpow_zero]

theorem sqrt_20000_gt : (11 / 10 : ℝ) < Real.sqrt 20000 :=
  (Real.lt_sqrt (by norm_num)).mpr (by norm_num)

theorem interpSteps_zero_sqrt20000 : interpSteps 0 (Real.sqrt 20000) = 141 := by
  rw [interpSteps_zero]
  exact nfloor_sqrt_eq (by norm_num) (by norm_num)

theorem sqrt_2097152_gt : (11 / 10 : ℝ) < Real.sqrt 2097152 :=
  (Real.lt_sqrt (by norm_num)).mpr (by norm_num)

theorem interpSteps_zero_sqrt2097152 : interpSteps 0 (Real.sqrt 2097152) = 1448 := by
  rw [interpSteps_zero]
  exact nfloor_sqrt_eq (by norm_num) (by norm_num)

theorem sqrt_4802_gt : (11 / 10 : ℝ) < Real.sqrt 4802 :=
  (Real.lt_sqrt (by norm_num)).mpr (by norm_num)

theorem interpSteps_zero_sqrt4802 : interpSteps 0 (Real.sqrt 4802) = 69 := by
  rw [interpSteps_zero]
  exact nfloor_sqrt_eq (by norm_num) (by norm_num)

theorem five_rpow_half_le : (5 : ℝ) ^ (0.5 : ℝ) ≤ 5 := by
  calc (5 : ℝ) ^ (0.5 : ℝ) ≤ (5 : ℝ) ^ (1 : ℝ) :=
        Real.rpow_le_rpow_of_exponent_le (by norm_num) (by norm_num)
    _ = 5 := Real.rpow_one 5

theorem five_rpow_half_nonneg : 0 ≤ (5 : ℝ) ^ (0.5 : ℝ) :=
  Real.rpow_nonneg (by norm_num) _

theorem maxRelativeSpreadOf_half_lt_one : ¬((1 : ℝ) ≤ maxRelativeSpreadOf (1 / 2)) := by
  rw [maxRelativeSpreadOf_eq]
  norm_num
  nlinarith [five_rpow_half_le, five_rpow_half_nonneg]

theorem pixelSpreadThresholdOf_half : pixelSpreadThresholdOf (1 / 2) = 2 := by
  rw [pixelSpreadThresholdOf]
  norm_num

theorem two_five_rpow_half_le : (2.5 : ℝ) ^ (0.5 : ℝ) ≤ 2.5 := by
  calc (2.5 : ℝ) ^ (0.5 : ℝ) ≤ (2.5 : ℝ) ^ (1 : ℝ) :=
        Real.rpow_le_rpow_of_exponent_le (by norm_num) (by norm_num)
    _ = 2.5 := Real.rpow_one 2.5

theorem interpolationThresholdOf_half_lt_sqrt20000 :
    interpolationThresholdOf (1 / 2) < Real.sqrt 20000 := by
  rw [interpolationThresholdOf]
  have h1 : (2.75 : ℝ) < Real.sqrt 20000 := (Real.lt_sqrt (by norm_num)).mpr (by norm_num)
  have h2 := two_five_rpow_half_le
  norm_num
  nlinarith [h1, h2]

theorem interpSteps_half_sqrt20000 : interpSteps (1 / 2) (Real.sqrt 20000) = 100 := by
  rw [interpSteps_half]
  have h : Real.sqrt 20000 / Real.sqrt 2 = 100 := by
    rw [← Real.sqrt_div (by norm_num : (0 : ℝ) ≤ 20000), show (20000 : ℝ) / 2 = 10000 by norm_num,
      show (10000 : ℝ) = 100 ^ 2 by norm_num, Real.sqrt_sq (by norm_num)]
  rw [h]
  norm_num

theorem rpow_three_point_five : (2 : ℝ) ^ (3.5 : ℝ) = 8 * Real.sqrt 2 := by
  have h1 : (3.5 : ℝ) = 3 + 1 / 2 := by norm_num
  rw [h1, Real.rpow_add (by norm_num : (0 : ℝ) < 2), ← Real.sqrt_eq_rpow]
  have h2 : (2 : ℝ) ^ (3 : ℝ) = 8 := by
    rw [show (3 : ℝ) = ((3 : ℕ) : ℝ) by norm_num, Real.rpow_natCast]
    norm_num
  rw [h2]

theorem maxRelativeSpreadOf_38 : maxRelativeSpreadOf 3.8 = 0.042 := by
  rw [maxRelativeSpreadOf_eq]
  norm_num

theorem maxRelativeSpreadOf_four : maxRelativeSpreadOf 4 = 0.05 := by
  rw [maxRelativeSpreadOf_eq]
  norm_num

theorem pixelSpreadThresholdOf_38 : pixelSpreadThresholdOf 3.8 = 8.6 := by
  rw [pixelSpreadThresholdOf]
  norm_num

theorem pixelSpreadThresholdOf_four : pixelSpreadThresholdOf 4 = 9 := by
  rw [pixelSpreadThresholdOf]
  norm_num

theorem interpolationThresholdOf_38 : interpolationThresholdOf 3.8 = 67 := by
  rw [interpolationThresholdOf]
  norm_num

theorem interpolationThresholdOf_four : interpolationThresholdOf 4 = 75 := by
  rw [interpolationThresholdOf]
  norm_num

theorem sqrt_162_not_gt : ¬((67 : ℝ) < Real.sqrt 162) :=
  not_lt.mpr (le_of_lt ((Real.sqrt_lt' (by norm_num)).mpr (by norm_num)))

theorem sqrt_4232_not_gt : ¬((67 : ℝ) < Real.sqrt 4232) :=
  not_lt.mpr (le_of_lt ((Real.sqrt_lt' (by norm_num)).mpr (by norm_num)))

theorem sqrt_4050_not_gt_67 : ¬((67 : ℝ) < Real.sqrt 4050) :=
  not_lt.mpr (le_of_lt ((Real.sqrt_lt' (by norm_num)).mpr (by norm_num)))

theorem sqrt_6050_gt : (75 : ℝ) < Real.sqrt 6050 :=
  (Real.lt_sqrt (by norm_num)).mpr (by norm_num)

theorem sqrt_4050_not_gt_75 : ¬((75 : ℝ) < Real.sqrt 4050) :=
  not_lt.mpr (le_of_lt ((Real.sqrt_lt' (by norm_num)).mpr (by norm_num)))

theorem interpSteps_four_sqrt6050 : interpSteps 4 (Real.sqrt 6050) = 3 := by
  rw [interpSteps]
  have hmin : min (4 : ℝ) 3.5 = 3.5 := by norm_num
  rw [hmin, rpow_three_point_five]
  have h6050 : Real.sqrt 6050 = 55 * Real.sqrt 2 := by
    rw [show (6050 : ℝ) = 55 ^ 2 * 2 by norm_num, Real.sqrt_mul (by positivity),
      Real.sqrt_sq (by norm_num)]
  have hs2 : Real.sqrt 2 ≠ 0 := by positivity
  rw [h6050, show 55 * Real.sqrt 2 / (8 * Real.sqrt 2) = 55 / 8 by field_simp; ring]
  have h58 : ⌊(55 / 8 : ℝ)⌋₊ = 6 := (Nat.floor_eq_iff (by norm_num)).mpr (by norm_num)
  norm_num [h58]

theorem getLastI_concat (l : List ℂ) (x : ℂ) : (l ++ [x]).getLastI = x := by
  rw [List.getLastI_eq_getLast?, List.getLast?_concat]

/-! ## Claim theorems for the downsampler -/

/-- C7. `downsampleComplex` returns exactly the sequential reference
output for every input of fewer than 10000 points (and every worker count,
resolution, aggressiveness and debug flag): the parallel entry point
delegates before doing anything else. -/
theorem downsampleComplex_delegates (numWorkers : ℕ) (links : List ℂ) (outputSize : ℕ)
    (a : ℝ) (debug : Bool) (h : links.length < 10000) :
    downsampleComplex numWorkers links outputSize a debug
      = downsampleComplexSerial links outputSize a debug := by
  rw [downsampleComplex, if_pos h]

/-- Witness for C7 on a one-point trajectory with 4 workers. -/
theorem downsampleComplex_delegates_witness :
    ([(⟨1, 1⟩ : ℂ)].length < 10000) ∧
    downsampleComplex 4 [(⟨1, 1⟩ : ℂ)] 100 0 false
      = downsampleComplexSerial [(⟨1, 1⟩ : ℂ)] 100 0 false :=
  ⟨by simp, downsampleComplex_delegates 4 [⟨1, 1⟩] 100 0 false (by simp)⟩

/-- C10. The downsampler's output can be strictly longer than its input:
on the two points `(0,0)` and `(100,100)` at resolution 100 and
aggressiveness 0, the pixel gap `√20000 ≈ 141.4` exceeds the interpolation
threshold `1.1`, so `⌊√20000⌋ = 141` synthetic points are inserted and the
output has 143 points for a 2-point input. -/
theorem downsample_output_longer_than_input :
    (downsampleComplexSerial [⟨0, 0⟩, ⟨100, 100⟩] 100 0 false).length = 143 ∧
    ([(⟨0, 0⟩ : ℂ), ⟨100, 100⟩]).length < 143 := by
  constructor
  · have hb : viewBounds ⟨0, 0⟩ [(⟨0, 0⟩ : ℂ), ⟨100, 100⟩] = ((0, 100), (0, 100)) := by
      simp only [viewBounds, List.foldl_cons, List.foldl_nil]
      norm_num
    have hpix0 : pixelForLink 0 100 0 100 100 (⟨0, 0⟩ : ℂ) = (0, 0) := by
      rw [pixelForLink, mathRound_of_nonneg (by norm_num)]
      norm_num
    have hpix1 : pixelForLink 0 100 0 100 100 (⟨100, 100⟩ : ℂ) = (100, 100) := by
      rw [pixelForLink, mathRound_of_nonneg (by norm_num)]
      norm_num
    rw [downsampleComplexSerial]
    simp only [hb, maxRelativeSpreadOf_zero, pixelSpreadThresholdOf_zero,
      interpolationThresholdOf_zero]
    norm_num [serialPass, hpix0, hpix1, sqrt_20000_gt, interpSteps_zero_sqrt20000,
      interpPoints_length]
  · simp

/-- Evaluation of the collapse-to-one test input on the code: the three
nearly identical points do *not* collapse (relative spread `0.02` exceeds the
`0.0001` threshold at aggressiveness 0); they land in pixel bins 0, 1024 and
2048 and the two bin gaps of `√2097152 ≈ 1448.15` each synthesize 1448
interpolation points. -/
theorem downsample_collapse_test_eval :
    (downsampleComplexSerial [⟨1, 1⟩, ⟨1.0001, 1.0001⟩, ⟨1.0002, 1.0002⟩] 2048 0 false).length
      = 2899 := by
  have hb : viewBounds ⟨1, 1⟩ [(⟨1, 1⟩ : ℂ), ⟨1.0001, 1.0001⟩, ⟨1.0002, 1.0002⟩]
      = ((1, 1.0002), (1, 1.0002)) := by
    simp only [viewBounds, List.foldl_cons, List.foldl_nil]
    norm_num
  have hpix0 : pixelForLink 1 1.0002 1 1.0002 2048 (⟨1, 1⟩ : ℂ) = (0, 0) := by
    rw [pixelForLink, mathRound_of_nonneg (by norm_num)]
    norm_num
  have hpix1 : pixelForLink 1 1.0002 1 1.0002 2048 (⟨1.0001, 1.0001⟩ : ℂ) = (1024, 1024) := by
    rw [pixelForLink, mathRound_of_nonneg (by norm_num)]
    norm_num
  have hpix2 : pixelForLink 1 1.0002 1 1.0002 2048 (⟨1.0002, 1.0002⟩ : ℂ) = (2048, 2048) := by
    rw [pixelForLink, mathRound_of_nonneg (by norm_num)]
    norm_num
  rw [downsampleComplexSerial]
  simp only [hb, maxRelativeSpreadOf_zero, pixelSpreadThresholdOf_zero,
    interpolationThresholdOf_zero]
  norm_num at hpix0 hpix1 hpix2
  norm_num [serialPass, hpix0, hpix1, hpix2, sqrt_2097152_gt, interpSteps_zero_sqrt2097152,
    interpPoints_length]

/-- Evaluation of the boundary-interpolation test input on the code: the two
points `(1,1)` and `(100,100)` at resolution 100 and aggressiveness 0.5 map
to bins `(0,0)` and `(100,100)`; the gap `√20000` produces
`⌊√20000 / 2^0.5⌋ = 100` interpolation points, so the output has 102 points
(not the 142 the repository's own test expects), with the input endpoints
preserved exactly. -/
theorem downsample_interpolation_test_eval :
    (downsampleComplexSerial [⟨1, 1⟩, ⟨100, 100⟩] 100 0.5 false).length = 102 ∧
    (downsampleComplexSerial [⟨1, 1⟩, ⟨100, 100⟩] 100 0.5 false)[0]? = some ⟨1, 1⟩ ∧
    (downsampleComplexSerial [⟨1, 1⟩, ⟨100, 100⟩] 100 0.5 false).getLast?
      = some ⟨100, 100⟩ := by
  have hb : viewBounds ⟨1, 1⟩ [(⟨1, 1⟩ : ℂ), ⟨100, 100⟩] = ((1, 100), (1, 100)) := by
    simp only [viewBounds, List.foldl_cons, List.foldl_nil]
    norm_num
  have hpix0 : pixelForLink 1 100 1 100 100 (⟨1, 1⟩ : ℂ) = (0, 0) := by
    rw [pixelForLink, mathRound_of_nonneg (by norm_num)]
    norm_num
  have hpix1 : pixelForLink 1 100 1 100 100 (⟨100, 100⟩ : ℂ) = (100, 100) := by
    rw [pixelForLink, mathRound_of_nonneg (by norm_num)]
    norm_num
  have heval : downsampleComplexSerial [⟨1, 1⟩, ⟨100, 100⟩] 100 0.5 false
      = [(⟨1, 1⟩ : ℂ)] ++ interpPoints ⟨1, 1⟩ ⟨100, 100⟩ 100 ++ [(⟨100, 100⟩ : ℂ)] := by
    rw [downsampleComplexSerial]
    simp only [hb]
    norm_num [serialPass, hpix0, hpix1, maxRelativeSpreadOf_half_lt_one,
      pixelSpreadThresholdOf_half, interpolationThresholdOf_half_lt_sqrt20000,
      interpSteps_half_sqrt20000]
  rw [heval]
  refine ⟨?_, ?_, ?_⟩
  · simp [interpPoints_length]
  · simp
  · rw [List.append_assoc, List.getLast?_append, List.getLast?_concat]
    rfl

/-- C9 counterexample: The output point count is *not* monotone in
aggressiveness: on the diagonal points `(0,0), (2,2), (12,12), (22,22)` at
resolution 100, aggressiveness 3.8 yields 4 output points while the larger
aggressiveness 4.0 yields 6 — the wider grouping threshold (9 instead of 8.6
pixels) merges the second point into the first group, which moves the group's
recorded bin and pushes the next boundary gap `55√2 ≈ 77.8` over the
interpolation threshold 75, inserting 3 extra synthetic points. -/
theorem downsample_aggressiveness_counterexample :
    (3.8 : ℝ) ≤ 4 ∧
    (downsampleComplexSerial [⟨0, 0⟩, ⟨2, 2⟩, ⟨12, 12⟩, ⟨22, 22⟩] 100 3.8 false).length = 4 ∧
    (downsampleComplexSerial [⟨0, 0⟩, ⟨2, 2⟩, ⟨12, 12⟩, ⟨22, 22⟩] 100 4 false).length = 6 := by
  have hb : viewBounds ⟨0, 0⟩ [(⟨0, 0⟩ : ℂ), ⟨2, 2⟩, ⟨12, 12⟩, ⟨22, 22⟩]
      = ((0, 22), (0, 22)) := by
    simp only [viewBounds, List.foldl_cons, List.foldl_nil]
    norm_num
  have hpix0 : pixelForLink 0 22 0 22 100 (⟨0, 0⟩ : ℂ) = (0, 0) := by
    rw [pixelForLink, mathRound_of_nonneg (by norm_num)]
    norm_num
  have hpix1 : pixelForLink 0 22 0 22 100 (⟨2, 2⟩ : ℂ) = (9, 9) := by
    rw [pixelForLink, mathRound_of_nonneg (by norm_num)]
    norm_num
  have hpix2 : pixelForLink 0 22 0 22 100 (⟨12, 12⟩ : ℂ) = (55, 55) := by
    rw [pixelForLink, mathRound_of_nonneg (by norm_num)]
    norm_num
  have hpix3 : pixelForLink 0 22 0 22 100 (⟨22, 22⟩ : ℂ) = (100, 100) := by
    rw [pixelForLink, mathRound_of_nonneg (by norm_num)]
    norm_num
  refine ⟨by norm_num, ?_, ?_⟩
  · rw [downsampleComplexSerial]
    simp only [hb, maxRelativeSpreadOf_38, pixelSpreadThresholdOf_38,
      interpolationThresholdOf_38]
    norm_num [serialPass, hpix0, hpix1, hpix2, hpix3, sqrt_162_not_gt, sqrt_4232_not_gt,
      sqrt_4050_not_gt_67]
  · rw [downsampleComplexSerial]
    simp only [hb, maxRelativeSpreadOf_four, pixelSpreadThresholdOf_four,
      interpolationThresholdOf_four]
    norm_num [serialPass, hpix0, hpix1, hpix2, hpix3, sqrt_6050_gt, sqrt_4050_not_gt_75,
      interpSteps_four_sqrt6050, interpPoints_length]

/-- C9 amended: What *is* monotone in aggressiveness is the collapse
threshold: `maxRelativeSpread` never decreases as aggressiveness grows, so
the whole-trajectory collapse-to-one short-circuit never switches off when
aggressiveness is increased. -/
theorem maxRelativeSpreadOf_monotone (a1 a2 : ℝ) (h : a1 ≤ a2) :
    maxRelativeSpreadOf a1 ≤ maxRelativeSpreadOf a2 := by
  have h35 : (5 : ℝ) ^ (3.5 : ℝ) ≤ 280 := by
    have he : (5 : ℝ) ^ (3.5 : ℝ) = Real.sqrt 78125 := by
      rw [show (3.5 : ℝ) = (7 : ℝ) * (1 / 2) by norm_num,
        Real.rpow_mul (by norm_num : (0 : ℝ) ≤ 5),
        show (7 : ℝ) = ((7 : ℕ) : ℝ) by norm_num, Real.rpow_natCast, ← Real.sqrt_eq_rpow]
      norm_num
    rw [he]
    have hs := Real.sqrt_le_sqrt (by norm_num : (78125 : ℝ) ≤ 78400)
    rwa [show (78400 : ℝ) = 280 ^ 2 by norm_num, Real.sqrt_sq (by norm_num)] at hs
  rw [maxRelativeSpreadOf_eq, maxRelativeSpreadOf_eq]
  by_cases hy : 3.5 < a2
  · rw [if_pos hy]
    by_cases hx : 3.5 < a1
    · rw [if_pos hx]
      have h' : (a1 - 3.5) / 0.5 ≤ (a2 - 3.5) / 0.5 :=
        (div_le_div_iff_of_pos_right (by norm_num)).mpr (by linarith)
      linarith
    · rw [if_neg hx]
      push_neg at hx
      by_cases hx0 : 0 < a1
      · rw [if_pos hx0]
        have h1 : (5 : ℝ) ^ a1 ≤ (5 : ℝ) ^ (3.5 : ℝ) :=
          Real.rpow_le_rpow_of_exponent_le (by norm_num) hx
        have h2 : 0 ≤ (a2 - 3.5) / 0.5 := div_nonneg (by linarith) (by norm_num)
        nlinarith
      · rw [if_neg hx0]
        have h2 : 0 ≤ (a2 - 3.5) / 0.5 := div_nonneg (by linarith) (by norm_num)
        nlinarith
  · rw [if_neg hy]
    push_neg at hy
    rw [if_neg (by push_neg; linarith : ¬(3.5 < a1))]
    by_cases hy0 : 0 < a2
    · rw [if_pos hy0]
      by_cases hx0 : 0 < a1
      · rw [if_pos hx0]
        exact mul_le_mul_of_nonneg_left
          (Real.rpow_le_rpow_of_exponent_le (by norm_num) h) (by norm_num)
      · rw [if_neg hx0]
        have h1 : (5 : ℝ) ^ (0 : ℝ) ≤ (5 : ℝ) ^ a2 :=
          Real.rpow_le_rpow_of_exponent_le (by norm_num) (le_of_lt hy0)
        rw [Real.rpow_zero] at h1
        nlinarith
    · rw [if_neg hy0]
      by_cases hx0 : 0 < a1
      · exact absurd (lt_of_lt_of_le hx0 h) hy0
      · rw [if_neg hx0]

/-- Witness for the amended C9 at `a1 = 0`, `a2 = 4`. -/
theorem maxRelativeSpreadOf_monotone_witness :
    (0 : ℝ) ≤ 4 ∧ maxRelativeSpreadOf 0 ≤ maxRelativeSpreadOf 4 :=
  ⟨by norm_num, maxRelativeSpreadOf_monotone 0 4 (by norm_num)⟩

theorem getLastI_cons_append (x : ℂ) (l : List ℂ) (y : ℂ) :
    (x :: (l ++ [y])).getLastI = y := by
  rw [List.getLastI_eq_getLast?, show x :: (l ++ [y]) = (x :: l) ++ [y] by simp,
    List.getLast?_concat]

/-- C8 counterexample: On the four points `(50,50), (1,1), (1,1),
(100,100)` split into two chunks of two (resolution 100, aggressiveness 0),
the last point emitted by chunk 0 and the first point emitted by chunk 1 are
both `(1,1)` — their pixel-bin gap is 0, below the threshold, so the
spec-described merge inserts nothing.  The code's merge instead compares the
two chunks' recorded final-group bins `(0,0)` and `(100,100)` (gap
`√20000 ≈ 141.4`) and inserts 141 interpolated points, so the two merges
disagree (355 versus 214 output points). -/
theorem downsample_merge_gap_counterexample :
    downsampleComplexPar 2 [⟨50, 50⟩, ⟨1, 1⟩, ⟨1, 1⟩, ⟨100, 100⟩] 100 0 false
      ≠ downsampleComplexParSpecMerge 2 [⟨50, 50⟩, ⟨1, 1⟩, ⟨1, 1⟩, ⟨100, 100⟩] 100 0 false := by
  have hb : viewBounds ⟨50, 50⟩ [(⟨50, 50⟩ : ℂ), ⟨1, 1⟩, ⟨1, 1⟩, ⟨100, 100⟩]
      = ((1, 100), (1, 100)) := by
    simp only [viewBounds, List.foldl_cons, List.foldl_nil]
    norm_num
  have hpix50 : pixelForLink 1 100 1 100 100 (⟨50, 50⟩ : ℂ) = (49, 49) := by
    rw [pixelForLink, mathRound_of_nonneg (by norm_num)]
    norm_num
  have hpix1 : pixelForLink 1 100 1 100 100 (⟨1, 1⟩ : ℂ) = (0, 0) := by
    rw [pixelForLink, mathRound_of_nonneg (by norm_num)]
    norm_num
  have hpix100 : pixelForLink 1 100 1 100 100 (⟨100, 100⟩ : ℂ) = (100, 100) := by
    rw [pixelForLink, mathRound_of_nonneg (by norm_num)]
    norm_num
  have hrange : List.range 2 = [0, 1] := by decide
  have hlen1 : (downsampleComplexPar 2 [(⟨50, 50⟩ : ℂ), ⟨1, 1⟩, ⟨1, 1⟩, ⟨100, 100⟩]
      100 0 false).length = 355 := by
    rw [downsampleComplexPar]
    simp only [hb, maxRelativeSpreadOf_zero, pixelSpreadThresholdOf_zero,
      interpolationThresholdOf_zero, hrange]
    norm_num [processChunk, serialPass, mergeChunks, hpix50, hpix1, hpix100,
      sqrt_4802_gt, interpSteps_zero_sqrt4802, sqrt_20000_gt, interpSteps_zero_sqrt20000,
      interpPoints_length]
    simp [interpPoints_length]
  have hlen2 : (downsampleComplexParSpecMerge 2 [(⟨50, 50⟩ : ℂ), ⟨1, 1⟩, ⟨1, 1⟩, ⟨100, 100⟩]
      100 0 false).length = 214 := by
    rw [downsampleComplexParSpecMerge]
    simp only [hb, maxRelativeSpreadOf_zero, pixelSpreadThresholdOf_zero,
      interpolationThresholdOf_zero, hrange]
    norm_num [processChunk, serialPass, mergeChunksSpecModel, hpix50, hpix1, hpix100,
      sqrt_4802_gt, interpSteps_zero_sqrt4802, sqrt_20000_gt, interpSteps_zero_sqrt20000,
      interpPoints_length, getLastI_concat, getLastI_cons_append, Real.sqrt_zero]
    simp [interpPoints_length, getLastI_cons_append, Real.sqrt_zero]
  intro h
  rw [h, hlen2] at hlen1
  norm_num at hlen1

/-- C8 amended: In the code's merge phase, the gap check between
adjacent chunks that both emitted points is evaluated between the recorded
final-group pixel bins of chunk `i` and chunk `i+1` (`lastPx`/`lastPy` of
*both* chunks, i.e. the bin of each chunk's last group seed — not the first
point emitted by chunk `i+1`), and when that gap exceeds the threshold, the
interpolated points are inserted between chunk `i`'s last raw point and chunk
`i+1`'s first emitted point. -/
theorem mergeChunks_adjacent (ithr a : ℝ) (c d : ChunkResult) (rest : List ChunkResult)
    (hc : c.points ≠ []) (hd : d.points ≠ []) :
    mergeChunks ithr a (c :: d :: rest)
      = c.points ++
          (if ithr < Real.sqrt ((((d.lastPx - c.lastPx) * (d.lastPx - c.lastPx)
                + (d.lastPy - c.lastPy) * (d.lastPy - c.lastPy) : ℤ) : ℝ)) then
            interpPoints c.lastPoint d.points.headI
              (interpSteps a (Real.sqrt ((((d.lastPx - c.lastPx) * (d.lastPx - c.lastPx)
                + (d.lastPy - c.lastPy) * (d.lastPy - c.lastPy) : ℤ) : ℝ))))
          else []) ++
        mergeChunks ithr a (d :: rest) := by
  conv_lhs => rw [mergeChunks]
  rw [if_neg hc]
  simp only
  rw [if_neg hd]

/-- Witness for the amended C8 on two concrete one-point chunk results. -/
theorem mergeChunks_adjacent_witness :
    ((⟨[⟨0, 0⟩], ⟨0, 0⟩, 0, 0⟩ : ChunkResult).points ≠ [] ∧
     (⟨[⟨3, 4⟩], ⟨3, 4⟩, 3, 4⟩ : ChunkResult).points ≠ []) ∧
    mergeChunks 1 0 [⟨[⟨0, 0⟩], ⟨0, 0⟩, 0, 0⟩, ⟨[⟨3, 4⟩], ⟨3, 4⟩, 3, 4⟩]
      = (⟨[⟨0, 0⟩], ⟨0, 0⟩, 0, 0⟩ : ChunkResult).points ++
          (if (1 : ℝ) < Real.sqrt (((((⟨[⟨3, 4⟩], ⟨3, 4⟩, 3, 4⟩ : ChunkResult).lastPx
                  - (⟨[⟨0, 0⟩], ⟨0, 0⟩, 0, 0⟩ : ChunkResult).lastPx)
                * ((⟨[⟨3, 4⟩], ⟨3, 4⟩, 3, 4⟩ : ChunkResult).lastPx
                  - (⟨[⟨0, 0⟩], ⟨0, 0⟩, 0, 0⟩ : ChunkResult).lastPx)
                + ((⟨[⟨3, 4⟩], ⟨3, 4⟩, 3, 4⟩ : ChunkResult).lastPy
                  - (⟨[⟨0, 0⟩], ⟨0, 0⟩, 0, 0⟩ : ChunkResult).lastPy)
                * ((⟨[⟨3, 4⟩], ⟨3, 4⟩, 3, 4⟩ : ChunkResult).lastPy
                  - (⟨[⟨0, 0⟩], ⟨0, 0⟩, 0, 0⟩ : ChunkResult).lastPy) : ℤ) : ℝ)) then
            interpPoints (⟨[⟨0, 0⟩], ⟨0, 0⟩, 0, 0⟩ : ChunkResult).lastPoint
              (⟨[⟨3, 4⟩], ⟨3, 4⟩, 3, 4⟩ : ChunkResult).points.headI
              (interpSteps 0 (Real.sqrt (((((⟨[⟨3, 4⟩], ⟨3, 4⟩, 3, 4⟩ : ChunkResult).lastPx
                  - (⟨[⟨0, 0⟩], ⟨0, 0⟩, 0, 0⟩ : ChunkResult).lastPx)
                * ((⟨[⟨3, 4⟩], ⟨3, 4⟩, 3, 4⟩ : ChunkResult).lastPx
                  - (⟨[⟨0, 0⟩], ⟨0, 0⟩, 0, 0⟩ : ChunkResult).lastPx)
                + ((⟨[⟨3, 4⟩], ⟨3, 4⟩, 3, 4⟩ : ChunkResult).lastPy
                  - (⟨[⟨0, 0⟩], ⟨0, 0⟩, 0, 0⟩ : ChunkResult).lastPy)
                * ((⟨[⟨3, 4⟩], ⟨3, 4⟩, 3, 4⟩ : ChunkResult).lastPy
                  - (⟨[⟨0, 0⟩], ⟨0, 0⟩, 0, 0⟩ : ChunkResult).lastPy) : ℤ) : ℝ))))
          else []) ++
        mergeChunks 1 0 [⟨[⟨3, 4⟩], ⟨3, 4⟩, 3, 4⟩] :=
  ⟨⟨by simp, by simp⟩,
   mergeChunks_adjacent 1 0 ⟨[⟨0, 0⟩], ⟨0, 0⟩, 0, 0⟩ ⟨[⟨3, 4⟩], ⟨3, 4⟩, 3, 4⟩ []
     (by simp) (by simp)⟩

end ZetaScale
